import Mathlib

/-!
Shallow embedding of `src/bayesclassifier.py` (class `NaiveBayesClassifier`).

Modelling conventions:
* Python string tokens and category identifiers are Lean `String`s.
* The two Python dictionaries `word_memo[category]` (token → document-occurrence
  count) and `document_count` are modelled as total functions.  `word_memo c` is
  an association list mirroring a Python dict: unique keys, insertion order,
  lookup of an absent key meaning "absent".  `document_count` has fixed key set
  equal to `categories` (its keys are created in `__init__` and never added to),
  so the `KeyError` raised by `self.document_count[category]` in `train` is
  modelled by an explicit membership test on `categories`.
* Python's arithmetic on counts and floats is modelled over `ℕ` and `ℚ`;
  a `ZeroDivisionError` raised by `/` is made explicit with `Except`.
* The tokenizer (`tokenize`) is an external nltk call returning
  `list(set(...))`, i.e. a deduplicated list of tokens; operations that the
  source applies to `self.tokenize(text)` take the resulting bag of words
  directly as a `List Token` parameter (deduplication appears as a `Nodup`
  hypothesis where it matters).
-/

abbrev Token := String
abbrev Cat := String

/-- Python exceptions that the embedded operations can raise. -/
inductive PyErr where
  | zeroDivision
  | keyError
  | indexError
deriving DecidableEq

/-- The mutable state of a `NaiveBayesClassifier` instance. -/
structure BayesState where
  categories : List Cat
  word_memo : Cat → List (Token × ℕ)
  document_count : Cat → ℕ
  total_document_count : ℕ

/-- `__init__`: empty per-category word maps, zero document counters. -/
def initState (categories : List Cat) : BayesState :=
  { categories := categories
    word_memo := fun _ => []
    document_count := fun _ => 0
    total_document_count := 0 }

/-- Dict read with default 0: `word_memo[category][word]` guarded by a
membership test, as in `word_count`. -/
def dictGet : List (Token × ℕ) → Token → ℕ
  | [], _ => 0
  | (k, v) :: rest, t => if k = t then v else dictGet rest t

/-- Dict update of `add_word`: increment the entry in place if the key is
present, otherwise append a fresh entry with count 1 (Python dicts keep
insertion order and new keys go last). -/
def dictIncr : List (Token × ℕ) → Token → List (Token × ℕ)
  | [], w => [(w, 1)]
  | (k, v) :: rest, w => if k = w then (k, v + 1) :: rest else (k, v) :: dictIncr rest w

/-- `dict.pop(word, None)`: delete the key's entry if present (dict keys are
unique, so deleting every entry with that key is the same operation). -/
def dictPop (d : List (Token × ℕ)) (w : Token) : List (Token × ℕ) :=
  d.filter (fun p => decide (p.1 ≠ w))

/-- `word_count(word, category)`: 0 for an absent token, else the stored count. -/
def word_count (s : BayesState) (w : Token) (c : Cat) : ℕ :=
  dictGet (s.word_memo c) w

/-- Sum of all counts over all categories (the `if not category` branch of
`total_word_count`). -/
def allWordCount (s : BayesState) : ℕ :=
  (s.categories.map (fun c => ((s.word_memo c).map Prod.snd).sum)).sum

/-- `total_word_count(category=None)`.  The aggregate branch is selected by
Python truthiness `if not category:`, so an empty-string category argument also
selects it. -/
def total_word_count (s : BayesState) (category : Option Cat) : ℕ :=
  match category with
  | none => allWordCount s
  | some c => if c = "" then allWordCount s else ((s.word_memo c).map Prod.snd).sum

/-- Number of distinct tokens across all categories (the `if not category`
branch of `vocab_size`, which builds a set union). -/
def allVocab (s : BayesState) : ℕ :=
  ((s.categories.map (fun c => (s.word_memo c).map Prod.fst)).flatten).dedup.length

/-- `vocab_size(category=None)`; the aggregate branch is again selected by
truthiness. -/
def vocab_size (s : BayesState) (category : Option Cat) : ℕ :=
  match category with
  | none => allVocab s
  | some c => if c = "" then allVocab s else (s.word_memo c).length

/-- Denominator of `category_probability`:
`sum(self.document_count[cat] for cat in self.categories)`. -/
def priorDen (s : BayesState) : ℕ :=
  (s.categories.map s.document_count).sum

/-- Value of `category_probability` when its division succeeds. -/
def categoryPriorVal (s : BayesState) (c : Cat) : ℚ :=
  (s.document_count c : ℚ) / (priorDen s : ℚ)

/-- `category_probability(category)`: Python `/` raises `ZeroDivisionError`
when no document has been trained. -/
def category_probability (s : BayesState) (c : Cat) : Except PyErr ℚ :=
  if priorDen s = 0 then .error .zeroDivision
  else .ok (categoryPriorVal s c)

/-- Numerator of `word_probability`:
`sum(self.word_count(word, cat) for cat in self.categories)`. -/
def wordProbNum (s : BayesState) (w : Token) : ℕ :=
  (s.categories.map (fun c => word_count s w c)).sum

/-- Value of `word_probability` when its division succeeds. -/
def wordProbVal (s : BayesState) (w : Token) : ℚ :=
  (wordProbNum s w : ℚ) / (s.total_document_count : ℚ)

/-- `word_probability(word)`: divides by `self.total_document_count`, raising
`ZeroDivisionError` when it is 0. -/
def word_probability (s : BayesState) (w : Token) : Except PyErr ℚ :=
  if s.total_document_count = 0 then .error .zeroDivision
  else .ok (wordProbVal s w)

/-- `word_probability_category(word, category)`: guarded division, returns 0
for an untrained category. -/
def word_probability_category (s : BayesState) (w : Token) (c : Cat) : ℚ :=
  if 0 < s.document_count c then (word_count s w c : ℚ) / (s.document_count c : ℚ)
  else 0

/-- The token loop of `text_likelihood`: multiply the running score by the
ratio whenever both probabilities are strictly positive. -/
def tlGo (s : BayesState) (c : Cat) : List Token → ℚ → Except PyErr ℚ
  | [], score => .ok score
  | w :: rest, score =>
    match word_probability s w with
    | .error e => .error e
    | .ok word_prob =>
      let word_cat_probability := word_probability_category s w c
      tlGo s c rest
        (if 0 < word_prob ∧ 0 < word_cat_probability then
          score * (word_cat_probability / word_prob)
        else score)

/-- `text_likelihood(bag_of_words, category)`: the accumulated product times
`category_probability(category)`. -/
def text_likelihood (s : BayesState) (bag : List Token) (c : Cat) : Except PyErr ℚ :=
  match tlGo s c bag 1 with
  | .error e => .error e
  | .ok score =>
    match category_probability s c with
    | .error e => .error e
    | .ok p => .ok (score * p)

/-- The category loop of `classify`: running maximum seeded at 0 with the
first category as default winner; strict `>` to replace. -/
def classifyGo (s : BayesState) (bag : List Token) :
    List Cat → Cat → ℚ → Except PyErr (Cat × ℚ)
  | [], max_category, max_likelihood => .ok (max_category, max_likelihood)
  | c :: rest, max_category, max_likelihood =>
    match text_likelihood s bag c with
    | .error e => .error e
    | .ok likelihood =>
      if max_likelihood < likelihood then classifyGo s bag rest c likelihood
      else classifyGo s bag rest max_category max_likelihood

/-- `classify(text)` applied to the already-tokenized bag of words.
`self.categories[0]` raises `IndexError` on an empty category list. -/
def classify (s : BayesState) (bag : List Token) : Except PyErr (Cat × ℚ) :=
  match s.categories with
  | [] => .error .indexError
  | c0 :: _ => classifyGo s bag s.categories c0 0

/-- `add_word(word, category)`: create the entry with count 1 or increment it. -/
def add_word (s : BayesState) (w : Token) (c : Cat) : BayesState :=
  { s with word_memo := fun c' => if c' = c then dictIncr (s.word_memo c') w else s.word_memo c' }

/-- The successful body of `train`: bump the two counters, then add every
token of the (deduplicated) bag. -/
def trainOk (s : BayesState) (bag : List Token) (c : Cat) : BayesState :=
  let s1 := { s with document_count := fun c' => if c' = c then s.document_count c' + 1 else s.document_count c' }
  let s2 := { s1 with total_document_count := s1.total_document_count + 1 }
  bag.foldl (fun t w => add_word t w c) s2

/-- `train(text, category)` with explicit mutation tracking: the first
statement `self.document_count[category] += 1` reads the dict before writing,
so an unconfigured category raises `KeyError` before any state change.  The
returned state is the state after the call (partially mutated state on an
exception — here: unchanged). -/
def trainSteps (s : BayesState) (bag : List Token) (c : Cat) : BayesState × Option PyErr :=
  if c ∈ s.categories then (trainOk s bag c, none) else (s, some .keyError)

/-- `train` as a fallible operation. -/
def train (s : BayesState) (bag : List Token) (c : Cat) : Except PyErr BayesState :=
  match trainSteps s bag c with
  | (s', none) => .ok s'
  | (_, some e) => .error e

/-- The `else` branch of `remove_word`: pop the token from every configured
category's map. -/
def removeAll (s : BayesState) (w : Token) : BayesState :=
  { s with word_memo := fun c => if c ∈ s.categories then dictPop (s.word_memo c) w else s.word_memo c }

/-- `remove_word(word, category=None)`: the branch is chosen by Python
truthiness `if category:`, so both an omitted category and a falsy (empty
string) category select removal from every category. -/
def remove_word (s : BayesState) (w : Token) (category : Option Cat) : BayesState :=
  match category with
  | some c =>
    if c = "" then removeAll s w
    else { s with word_memo := fun c' => if c' = c then dictPop (s.word_memo c') w else s.word_memo c' }
  | none => removeAll s w

/-- The marking loop of `cleanup` for one category: collect the tokens of that
category whose marginal probability meets the threshold.  (Python collects
them in a `set`; the category's dict keys are unique, so the list collected in
iteration order has the same elements.) -/
def scanCat (s : BayesState) (threshold : ℚ) (c : Cat) : Except PyErr (List Token) :=
  (s.word_memo c).foldlM
    (fun to_remove p =>
      match word_probability s p.1 with
      | .error e => .error e
      | .ok wp => .ok (if threshold ≤ wp then to_remove ++ [p.1] else to_remove))
    []

/-- One iteration of `cleanup`'s outer loop: scan a category, then remove each
marked token from all categories, counting one removal per marked token. -/
def cleanupStep (threshold : ℚ) (acc : BayesState × ℕ) (c : Cat) : Except PyErr (BayesState × ℕ) :=
  match scanCat acc.1 threshold c with
  | .error e => .error e
  | .ok to_remove =>
    .ok (to_remove.foldl (fun t w => remove_word t w none) acc.1, acc.2 + to_remove.length)

/-- `cleanup(threshold=0.2)`: the returned number is the `removed_count` the
source reports (prints). -/
def cleanup (s : BayesState) (threshold : ℚ) : Except PyErr (BayesState × ℕ) :=
  s.categories.foldlM (cleanupStep threshold) (s, 0)

/-- The distinct tokens present in some configured category's map. -/
def corpusTokens (s : BayesState) : List Token :=
  ((s.categories.map (fun c => (s.word_memo c).map Prod.fst)).flatten).dedup

/-- The condition under which a token contributes a factor in
`text_likelihood`. -/
def tlCond (s : BayesState) (c : Cat) (w : Token) : Bool :=
  decide (0 < wordProbVal s w) && decide (0 < word_probability_category s w c)

/-- The product accumulated by `text_likelihood`'s token loop, written as a
product over the contributing tokens. -/
def tlProd (s : BayesState) (bag : List Token) (c : Cat) : ℚ :=
  ((bag.filter (tlCond s c)).map (fun w => word_probability_category s w c / wordProbVal s w)).prod

/-- The value `text_likelihood` returns when no division fails. -/
def tlVal (s : BayesState) (bag : List Token) (c : Cat) : ℚ :=
  tlProd s bag c * categoryPriorVal s c

/-- States reachable through the class API: construction (with a non-empty,
duplicate-free category list, per the constructor's contract) followed by any
sequence of successful operations.  `train` receives deduplicated bags because
`tokenize` returns `list(set(...))`. -/
inductive Reachable : BayesState → Prop where
  | init : ∀ categories, categories ≠ [] → categories.Nodup →
      Reachable (initState categories)
  | train_step : ∀ s bag c s', Reachable s → bag.Nodup →
      train s bag c = .ok s' → Reachable s'
  | cleanup_step : ∀ s threshold s' n, Reachable s →
      cleanup s threshold = .ok (s', n) → Reachable s'
  | remove_step : ∀ s w category, Reachable s → Reachable (remove_word s w category)

/-! ### Association-list (dict) lemmas -/

theorem dictGet_filter (q : Token → Bool) (d : List (Token × ℕ)) (t : Token) :
    dictGet (d.filter (fun p => q p.1)) t = if q t then dictGet d t else 0 := by
  induction d with
  | nil => simp [dictGet]
  | cons p rest ih =>
    obtain ⟨k, v⟩ := p
    rcases eq_or_ne k t with hkt | hkt
    · subst hkt
      by_cases hq : q k
      · simp [List.filter_cons, hq, dictGet]
      · simp [List.filter_cons, hq, dictGet, ih]
    · by_cases hq : q k <;>
        simp [List.filter_cons, hq, dictGet, hkt, ih]

theorem dictGet_dictPop (d : List (Token × ℕ)) (w t : Token) :
    dictGet (dictPop d w) t = if t = w then 0 else dictGet d t := by
  have h := dictGet_filter (fun t => decide (t ≠ w)) d t
  unfold dictPop
  rw [h]
  rcases eq_or_ne t w with rfl | h
  · simp
  · simp [h]

theorem dictGet_dictIncr (d : List (Token × ℕ)) (w t : Token) :
    dictGet (dictIncr d w) t = if t = w then dictGet d w + 1 else dictGet d t := by
  induction d with
  | nil =>
    rcases eq_or_ne t w with rfl | h
    · simp [dictIncr, dictGet]
    · simp [dictIncr, dictGet, h, Ne.symm h]
  | cons p rest ih =>
    obtain ⟨k, v⟩ := p
    by_cases hkw : k = w
    · subst hkw
      rcases eq_or_ne k t with rfl | htk
      · simp [dictIncr, dictGet]
      · simp [dictIncr, dictGet, htk, Ne.symm htk]
    · rcases eq_or_ne k t with rfl | htk
      · simp [dictIncr, dictGet, hkw, Ne.symm hkw]
      · simp [dictIncr, dictGet, hkw, htk, ih]

theorem keys_filter (q : Token → Bool) (d : List (Token × ℕ)) :
    (d.filter (fun p => q p.1)).map Prod.fst = (d.map Prod.fst).filter q := by
  induction d with
  | nil => simp
  | cons p rest ih => by_cases hq : q p.1 <;> simp [List.filter_cons, hq, ih]

theorem keys_dictIncr (d : List (Token × ℕ)) (w : Token) :
    (dictIncr d w).map Prod.fst =
      if w ∈ d.map Prod.fst then d.map Prod.fst else d.map Prod.fst ++ [w] := by
  induction d with
  | nil => simp [dictIncr]
  | cons p rest ih =>
    obtain ⟨k, v⟩ := p
    by_cases hkw : k = w
    · subst hkw; simp [dictIncr]
    · by_cases hm : w ∈ rest.map Prod.fst <;>
        simp [dictIncr, hkw, ih, hm, Ne.symm hkw]

theorem nodupKeys_dictIncr (d : List (Token × ℕ)) (w : Token)
    (h : (d.map Prod.fst).Nodup) : ((dictIncr d w).map Prod.fst).Nodup := by
  rw [keys_dictIncr]
  by_cases hm : w ∈ d.map Prod.fst
  · simp only [hm, if_true]
    exact h
  · simp only [hm, if_false]
    rw [List.nodup_append]
    refine ⟨h, List.nodup_singleton w, ?_⟩
    intro a ha hb
    rw [List.mem_singleton] at hb
    exact hm (hb ▸ ha)

theorem dictIncr_snd_pos :
    ∀ (d : List (Token × ℕ)) (w : Token), (∀ p ∈ d, 1 ≤ p.2) →
      ∀ p ∈ dictIncr d w, 1 ≤ p.2 := by
  intro d
  induction d with
  | nil => intro w _ p hp; simp [dictIncr] at hp; subst hp; simp
  | cons q rest ih =>
    obtain ⟨k, v⟩ := q
    intro w h p hp
    by_cases hkw : k = w
    · subst hkw
      simp only [dictIncr, if_pos rfl] at hp
      rcases List.mem_cons.mp hp with rfl | hp
      · have hv := h (k, v) (by simp)
        exact Nat.le_succ_of_le hv
      · exact h p (List.mem_cons_of_mem _ hp)
    · simp only [dictIncr, if_neg hkw] at hp
      rcases List.mem_cons.mp hp with rfl | hp
      · exact h (k, v) (by simp)
      · exact ih w (fun p hp => h p (List.mem_cons_of_mem _ hp)) p hp

theorem dictGet_of_mem :
    ∀ (d : List (Token × ℕ)), (d.map Prod.fst).Nodup →
      ∀ p ∈ d, dictGet d p.1 = p.2 := by
  intro d
  induction d with
  | nil => intro _ p hp; simp at hp
  | cons q rest ih =>
    obtain ⟨k, v⟩ := q
    intro hnd p hp
    rw [List.map_cons, List.nodup_cons] at hnd
    rcases List.mem_cons.mp hp with rfl | hp
    · simp [dictGet]
    · have h1 : p.1 ∈ rest.map Prod.fst := List.mem_map_of_mem Prod.fst hp
      have hk : k ≠ p.1 := by
        intro hkk
        apply hnd.1
        rw [hkk]
        exact h1
      simp [dictGet, hk, ih hnd.2 p hp]

/-! ### Field lemmas for the mutating operations -/

theorem add_word_memo (s : BayesState) (w : Token) (c c' : Cat) :
    (add_word s w c).word_memo c' =
      if c' = c then dictIncr (s.word_memo c') w else s.word_memo c' := rfl

theorem foldl_add_word_categories (bag : List Token) (c : Cat) :
    ∀ st : BayesState, (bag.foldl (fun t w => add_word t w c) st).categories = st.categories := by
  induction bag with
  | nil => intro st; rfl
  | cons w rest ih => intro st; rw [List.foldl_cons, ih]; rfl

theorem foldl_add_word_document_count (bag : List Token) (c : Cat) :
    ∀ st : BayesState, (bag.foldl (fun t w => add_word t w c) st).document_count = st.document_count := by
  induction bag with
  | nil => intro st; rfl
  | cons w rest ih => intro st; rw [List.foldl_cons, ih]; rfl

theorem foldl_add_word_total (bag : List Token) (c : Cat) :
    ∀ st : BayesState,
      (bag.foldl (fun t w => add_word t w c) st).total_document_count = st.total_document_count := by
  induction bag with
  | nil => intro st; rfl
  | cons w rest ih => intro st; rw [List.foldl_cons, ih]; rfl

theorem foldl_add_word_memo_ne (bag : List Token) (c c' : Cat) (h : c' ≠ c) :
    ∀ st : BayesState,
      (bag.foldl (fun t w => add_word t w c) st).word_memo c' = st.word_memo c' := by
  induction bag with
  | nil => intro st; rfl
  | cons w rest ih =>
    intro st
    rw [List.foldl_cons, ih, add_word_memo, if_neg h]

theorem foldl_add_word_get (bag : List Token) (c : Cat) (hnd : bag.Nodup) :
    ∀ (st : BayesState) (t : Token),
      dictGet ((bag.foldl (fun t w => add_word t w c) st).word_memo c) t =
        dictGet (st.word_memo c) t + (if t ∈ bag then 1 else 0) := by
  induction bag with
  | nil => intro st t; simp
  | cons w rest ih =>
    rw [List.nodup_cons] at hnd
    intro st t
    rw [List.foldl_cons, ih hnd.2, add_word_memo, if_pos rfl, dictGet_dictIncr]
    rcases eq_or_ne t w with rfl | htw
    · have : t ∉ rest := hnd.1
      simp [this]
    · simp [htw, List.mem_cons]

theorem trainOk_categories (s : BayesState) (bag : List Token) (c : Cat) :
    (trainOk s bag c).categories = s.categories := by
  unfold trainOk
  rw [foldl_add_word_categories]

theorem trainOk_document_count (s : BayesState) (bag : List Token) (c : Cat) :
    (trainOk s bag c).document_count =
      fun c' => if c' = c then s.document_count c' + 1 else s.document_count c' := by
  unfold trainOk
  rw [foldl_add_word_document_count]

theorem trainOk_total (s : BayesState) (bag : List Token) (c : Cat) :
    (trainOk s bag c).total_document_count = s.total_document_count + 1 := by
  unfold trainOk
  rw [foldl_add_word_total]

theorem trainOk_memo_ne (s : BayesState) (bag : List Token) (c c' : Cat) (h : c' ≠ c) :
    (trainOk s bag c).word_memo c' = s.word_memo c' := by
  unfold trainOk
  rw [foldl_add_word_memo_ne _ _ _ h]

theorem trainOk_get (s : BayesState) (bag : List Token) (c : Cat) (hnd : bag.Nodup) (t : Token) :
    word_count (trainOk s bag c) t c = word_count s t c + (if t ∈ bag then 1 else 0) := by
  unfold word_count trainOk
  rw [foldl_add_word_get _ _ hnd]

theorem foldl_add_word_keys_nodup (bag : List Token) (c : Cat) :
    ∀ (st : BayesState) (c' : Cat), ((st.word_memo c').map Prod.fst).Nodup →
      (((bag.foldl (fun t w => add_word t w c) st).word_memo c').map Prod.fst).Nodup := by
  induction bag with
  | nil => intro st c' h; exact h
  | cons w rest ih =>
    intro st c' h
    rw [List.foldl_cons]
    apply ih
    rw [add_word_memo]
    by_cases hc : c' = c
    · rw [if_pos hc]
      exact nodupKeys_dictIncr _ _ h
    · rwa [if_neg hc]

theorem foldl_add_word_snd_pos (bag : List Token) (c : Cat) :
    ∀ (st : BayesState) (c' : Cat), (∀ p ∈ st.word_memo c', 1 ≤ p.2) →
      ∀ p ∈ (bag.foldl (fun t w => add_word t w c) st).word_memo c', 1 ≤ p.2 := by
  induction bag with
  | nil => intro st c' h; exact h
  | cons w rest ih =>
    intro st c' h
    rw [List.foldl_cons]
    apply ih
    rw [add_word_memo]
    by_cases hc : c' = c
    · rw [if_pos hc]
      exact dictIncr_snd_pos _ _ h
    · rw [if_neg hc]
      exact h

theorem remove_word_categories (s : BayesState) (w : Token) (cat : Option Cat) :
    (remove_word s w cat).categories = s.categories := by
  unfold remove_word removeAll
  cases cat with
  | none => rfl
  | some c => by_cases h : c = "" <;> simp [h]

theorem remove_word_document_count (s : BayesState) (w : Token) (cat : Option Cat) :
    (remove_word s w cat).document_count = s.document_count := by
  unfold remove_word removeAll
  cases cat with
  | none => rfl
  | some c => by_cases h : c = "" <;> simp [h]

theorem remove_word_total (s : BayesState) (w : Token) (cat : Option Cat) :
    (remove_word s w cat).total_document_count = s.total_document_count := by
  unfold remove_word removeAll
  cases cat with
  | none => rfl
  | some c => by_cases h : c = "" <;> simp [h]

theorem remove_word_none_memo (s : BayesState) (w : Token) (c' : Cat) :
    (remove_word s w none).word_memo c' =
      if c' ∈ s.categories then dictPop (s.word_memo c') w else s.word_memo c' := rfl

/-- Every branch of `remove_word` leaves each category's map a key-filter of
the original map. -/
theorem remove_word_memo_filter (s : BayesState) (w : Token) (cat : Option Cat) (c' : Cat) :
    ∃ q : Token → Bool,
      (remove_word s w cat).word_memo c' = (s.word_memo c').filter (fun p => q p.1) := by
  have hid : (s.word_memo c').filter (fun p => (fun _ => true) p.1) = s.word_memo c' := by
    rw [List.filter_eq_self]
    intro a _
    rfl
  unfold remove_word removeAll dictPop
  cases cat with
  | none =>
    by_cases h : c' ∈ s.categories
    · exact ⟨fun t => decide (t ≠ w), by simp [h]⟩
    · exact ⟨fun _ => true, by simp [h, hid]⟩
  | some c =>
    by_cases he : c = ""
    · by_cases h : c' ∈ s.categories
      · exact ⟨fun t => decide (t ≠ w), by simp [he, h]⟩
      · exact ⟨fun _ => true, by simp [he, h, hid]⟩
    · by_cases h : c' = c
      · exact ⟨fun t => decide (t ≠ w), by simp [he, h]⟩
      · exact ⟨fun _ => true, by simp [he, h, hid]⟩

/-! ### Probability-engine lemmas -/

theorem word_probability_ok (s : BayesState) (w : Token) (h : s.total_document_count ≠ 0) :
    word_probability s w = .ok (wordProbVal s w) := by
  unfold word_probability
  rw [if_neg h]

theorem category_probability_ok (s : BayesState) (c : Cat) (h : priorDen s ≠ 0) :
    category_probability s c = .ok (categoryPriorVal s c) := by
  unfold category_probability
  rw [if_neg h]

theorem wordProbVal_nonneg (s : BayesState) (w : Token) : 0 ≤ wordProbVal s w := by
  unfold wordProbVal
  positivity

theorem word_probability_category_nonneg (s : BayesState) (w : Token) (c : Cat) :
    0 ≤ word_probability_category s w c := by
  unfold word_probability_category
  by_cases h : 0 < s.document_count c
  · rw [if_pos h]
    positivity
  · rw [if_neg h]

theorem categoryPriorVal_nonneg (s : BayesState) (c : Cat) : 0 ≤ categoryPriorVal s c := by
  unfold categoryPriorVal
  positivity

theorem tlProd_pos (s : BayesState) (bag : List Token) (c : Cat) : 0 < tlProd s bag c := by
  unfold tlProd
  apply List.prod_pos
  intro a ha
  rw [List.mem_map] at ha
  obtain ⟨w, hw, rfl⟩ := ha
  rw [List.mem_filter] at hw
  have hc := hw.2
  unfold tlCond at hc
  rw [Bool.and_eq_true, decide_eq_true_eq, decide_eq_true_eq] at hc
  exact div_pos hc.2 hc.1

theorem tlVal_nonneg (s : BayesState) (bag : List Token) (c : Cat) : 0 ≤ tlVal s bag c := by
  unfold tlVal
  exact mul_nonneg (le_of_lt (tlProd_pos s bag c)) (categoryPriorVal_nonneg s c)

/-! ### The token loop and the classifier loop -/

theorem tlGo_ok (s : BayesState) (c : Cat) (h : s.total_document_count ≠ 0) :
    ∀ (bag : List Token) (a : ℚ), tlGo s c bag a = .ok (a * tlProd s bag c) := by
  intro bag
  induction bag with
  | nil => intro a; simp [tlGo, tlProd]
  | cons w rest ih =>
    intro a
    rw [tlGo, word_probability_ok s w h]
    by_cases hcond : 0 < wordProbVal s w ∧ 0 < word_probability_category s w c
    · have hc : tlCond s c w = true := by
        unfold tlCond
        rw [Bool.and_eq_true, decide_eq_true_eq, decide_eq_true_eq]
        exact hcond
      simp only [if_pos hcond, ih]
      congr 1
      unfold tlProd
      rw [List.filter_cons, hc]
      simp [mul_assoc]
    · have hc : tlCond s c w = false := by
        rw [Bool.eq_false_iff]
        intro htrue
        apply hcond
        unfold tlCond at htrue
        rw [Bool.and_eq_true, decide_eq_true_eq, decide_eq_true_eq] at htrue
        exact htrue
      simp only [if_neg hcond, ih]
      congr 1
      unfold tlProd
      rw [List.filter_cons, hc]
      simp

theorem text_likelihood_ok (s : BayesState) (bag : List Token) (c : Cat)
    (h0 : s.total_document_count ≠ 0) (hden : priorDen s ≠ 0) :
    text_likelihood s bag c = .ok (tlVal s bag c) := by
  unfold text_likelihood
  rw [tlGo_ok s c h0 bag 1, category_probability_ok s c hden]
  simp [tlVal]

theorem tlGo_err (s : BayesState) (c : Cat) (h : s.total_document_count = 0)
    (w : Token) (rest : List Token) (a : ℚ) :
    tlGo s c (w :: rest) a = .error .zeroDivision := by
  rw [tlGo]
  unfold word_probability
  rw [if_pos h]

theorem text_likelihood_err (s : BayesState) (bag : List Token) (c : Cat)
    (h0 : s.total_document_count = 0) (hden : priorDen s = 0) :
    text_likelihood s bag c = .error .zeroDivision := by
  cases bag with
  | nil =>
    unfold text_likelihood
    have h1 : tlGo s c [] 1 = .ok 1 := rfl
    rw [h1]
    unfold category_probability
    rw [if_pos hden]
  | cons w rest =>
    unfold text_likelihood
    rw [tlGo_err s c h0 w rest 1]

theorem classifyGo_cons_err (s : BayesState) (bag : List Token) (c : Cat)
    (rest : List Cat) (mc : Cat) (ml : ℚ) (e : PyErr)
    (h : text_likelihood s bag c = .error e) :
    classifyGo s bag (c :: rest) mc ml = .error e := by
  rw [classifyGo, h]

theorem foldl_max_init_le (L : Cat → ℚ) :
    ∀ (cats : List Cat) (ml : ℚ), ml ≤ cats.foldl (fun a c => max a (L c)) ml := by
  intro cats
  induction cats with
  | nil => intro ml; exact le_refl ml
  | cons c rest ih =>
    intro ml
    rw [List.foldl_cons]
    exact le_trans (le_max_left ml (L c)) (ih (max ml (L c)))

theorem foldl_max_le (L : Cat → ℚ) :
    ∀ (cats : List Cat) (ml : ℚ), ∀ c ∈ cats, L c ≤ cats.foldl (fun a c => max a (L c)) ml := by
  intro cats
  induction cats with
  | nil => intro ml c hc; simp at hc
  | cons c0 rest ih =>
    intro ml c hc
    rw [List.foldl_cons]
    rcases List.mem_cons.mp hc with rfl | hc
    · exact le_trans (le_max_right ml (L c)) (foldl_max_init_le L rest (max ml (L c)))
    · exact ih (max ml (L c0)) c hc

/-- Characterization of `classify`'s category loop: the result is the running
maximum of the scores against the seed, and the winner is either the default
(when nothing strictly beat the seed) or the first category attaining the
maximum. -/
theorem classifyGo_spec (s : BayesState) (bag : List Token) (L : Cat → ℚ)
    (hok : ∀ c, text_likelihood s bag c = .ok (L c)) :
    ∀ (cats : List Cat) (mc : Cat) (ml : ℚ),
      ∃ w, classifyGo s bag cats mc ml = .ok (w, cats.foldl (fun a c => max a (L c)) ml) ∧
        ((w = mc ∧ cats.foldl (fun a c => max a (L c)) ml = ml ∧ ∀ c ∈ cats, L c ≤ ml) ∨
         (∃ pre post, cats = pre ++ w :: post ∧
            L w = cats.foldl (fun a c => max a (L c)) ml ∧
            ml < cats.foldl (fun a c => max a (L c)) ml ∧
            ∀ c ∈ pre, L c < cats.foldl (fun a c => max a (L c)) ml)) := by
  intro cats
  induction cats with
  | nil =>
    intro mc ml
    exact ⟨mc, rfl, Or.inl ⟨rfl, rfl, by simp⟩⟩
  | cons c rest ih =>
    intro mc ml
    rw [classifyGo, hok c]
    simp only [List.foldl_cons]
    by_cases hlt : ml < L c
    · rw [if_pos hlt]
      have hmax : max ml (L c) = L c := max_eq_right (le_of_lt hlt)
      rw [hmax]
      obtain ⟨w, hw, hcase⟩ := ih c (L c)
      refine ⟨w, hw, Or.inr ?_⟩
      rcases hcase with ⟨rfl, hM, hall⟩ | ⟨pre, post, hsplit, hLw, hlt2, hpre⟩
      · exact ⟨[], rest, rfl, hM.symm ▸ rfl, by rw [hM]; exact hlt, by simp⟩
      · refine ⟨c :: pre, post, by simp [hsplit], hLw, lt_trans hlt hlt2, ?_⟩
        intro c' hc'
        rcases List.mem_cons.mp hc' with rfl | hc'
        · exact hlt2
        · exact hpre c' hc'
    · rw [if_neg hlt]
      have hle : L c ≤ ml := not_lt.mp hlt
      have hmax : max ml (L c) = ml := max_eq_left hle
      rw [hmax]
      obtain ⟨w, hw, hcase⟩ := ih mc ml
      refine ⟨w, hw, ?_⟩
      rcases hcase with ⟨hwmc, hM, hall⟩ | ⟨pre, post, hsplit, hLw, hlt2, hpre⟩
      · refine Or.inl ⟨hwmc, hM, ?_⟩
        intro c' hc'
        rcases List.mem_cons.mp hc' with rfl | hc'
        · exact hle
        · exact hall c' hc'
      · refine Or.inr ⟨c :: pre, post, by simp [hsplit], hLw, hlt2, ?_⟩
        intro c' hc'
        rcases List.mem_cons.mp hc' with rfl | hc'
        · exact lt_of_le_of_lt hle hlt2
        · exact hpre c' hc'

/-! ### Cleanup machinery -/

theorem foldlM_except_cons {α β : Type} (f : α → β → Except PyErr α) (b : α) (x : β) (l : List β) :
    List.foldlM f b (x :: l) =
      match f b x with
      | .error e => .error e
      | .ok b' => List.foldlM f b' l := by
  rw [List.foldlM_cons]
  cases f b x <;> rfl

theorem scanCat_go (s : BayesState) (θ : ℚ) (h : s.total_document_count ≠ 0) :
    ∀ (d : List (Token × ℕ)) (acc : List Token),
      List.foldlM
        ((fun to_remove p =>
          match word_probability s p.1 with
          | Except.error e => Except.error e
          | Except.ok wp => Except.ok (if θ ≤ wp then to_remove ++ [p.1] else to_remove)) :
          List Token → Token × ℕ → Except PyErr (List Token))
        acc d
      = Except.ok (acc ++ (d.map Prod.fst).filter (fun w => decide (θ ≤ wordProbVal s w))) := by
  intro d
  induction d with
  | nil =>
    intro acc
    simp only [List.foldlM_nil, List.map_nil, List.filter_nil, List.append_nil]
    rfl
  | cons p rest ih =>
    intro acc
    rw [foldlM_except_cons, word_probability_ok s p.1 h]
    by_cases hθ : θ ≤ wordProbVal s p.1
    · simp only [if_pos hθ, ih]
      rw [List.map_cons, List.filter_cons]
      simp [hθ]
    · simp only [if_neg hθ, ih]
      rw [List.map_cons, List.filter_cons]
      simp [hθ]

theorem scanCat_ok (s : BayesState) (θ : ℚ) (c : Cat) (h : s.total_document_count ≠ 0) :
    scanCat s θ c =
      .ok (((s.word_memo c).map Prod.fst).filter (fun w => decide (θ ≤ wordProbVal s w))) := by
  unfold scanCat
  rw [scanCat_go s θ h]
  simp

theorem foldl_remove_all_categories :
    ∀ (ws : List Token) (st : BayesState),
      (ws.foldl (fun t w => remove_word t w none) st).categories = st.categories := by
  intro ws
  induction ws with
  | nil => intro st; rfl
  | cons w ws ih =>
    intro st
    rw [List.foldl_cons, ih, remove_word_categories]

theorem foldl_remove_all_document_count :
    ∀ (ws : List Token) (st : BayesState),
      (ws.foldl (fun t w => remove_word t w none) st).document_count = st.document_count := by
  intro ws
  induction ws with
  | nil => intro st; rfl
  | cons w ws ih =>
    intro st
    rw [List.foldl_cons, ih, remove_word_document_count]

theorem foldl_remove_all_total :
    ∀ (ws : List Token) (st : BayesState),
      (ws.foldl (fun t w => remove_word t w none) st).total_document_count =
        st.total_document_count := by
  intro ws
  induction ws with
  | nil => intro st; rfl
  | cons w ws ih =>
    intro st
    rw [List.foldl_cons, ih, remove_word_total]

theorem foldl_remove_all_memo :
    ∀ (ws : List Token) (st : BayesState) (c : Cat),
      (ws.foldl (fun t w => remove_word t w none) st).word_memo c =
        if c ∈ st.categories then (st.word_memo c).filter (fun p => decide (p.1 ∉ ws))
        else st.word_memo c := by
  intro ws
  induction ws with
  | nil =>
    intro st c
    rw [List.foldl_nil]
    by_cases hc : c ∈ st.categories
    · rw [if_pos hc]
      symm
      rw [List.filter_eq_self]
      intro a _
      simp
    · rw [if_neg hc]
  | cons w ws ih =>
    intro st c
    rw [List.foldl_cons, ih, remove_word_categories, remove_word_none_memo]
    by_cases hc : c ∈ st.categories
    · rw [if_pos hc, if_pos hc, if_pos hc]
      unfold dictPop
      rw [List.filter_filter]
      apply List.filter_congr
      intro x _
      by_cases h1 : x.1 = w <;> by_cases h2 : x.1 ∈ ws <;>
        simp [h1, h2]
    · rw [if_neg hc, if_neg hc, if_neg hc]

theorem cleanupGo_frame (θ : ℚ) :
    ∀ (cats : List Cat) (acc : BayesState × ℕ) (s' : BayesState) (n : ℕ),
      List.foldlM (cleanupStep θ) acc cats = .ok (s', n) →
      s'.categories = acc.1.categories ∧ s'.document_count = acc.1.document_count ∧
        s'.total_document_count = acc.1.total_document_count := by
  intro cats
  induction cats with
  | nil =>
    intro acc s' n h
    simp only [List.foldlM_nil] at h
    have h1 : acc = (s', n) := by
      cases h
      rfl
    rw [h1]
    exact ⟨rfl, rfl, rfl⟩
  | cons c rest ih =>
    intro acc s' n h
    rw [foldlM_except_cons] at h
    unfold cleanupStep at h
    cases hscan : scanCat acc.1 θ c with
    | error e => rw [hscan] at h; cases h
    | ok marked =>
      rw [hscan] at h
      have h2 := ih _ _ _ h
      rw [foldl_remove_all_categories, foldl_remove_all_document_count,
        foldl_remove_all_total] at h2
      exact h2

theorem cleanup_empty_go (θ : ℚ) :
    ∀ (cats : List Cat) (st : BayesState) (n : ℕ),
      (∀ c ∈ cats, st.word_memo c = []) →
      List.foldlM (cleanupStep θ) (st, n) cats = .ok (st, n) := by
  intro cats
  induction cats with
  | nil => intro st n _; rfl
  | cons c rest ih =>
    intro st n hmemo
    rw [foldlM_except_cons]
    have hscan : scanCat st θ c = .ok [] := by
      unfold scanCat
      rw [hmemo c (by simp)]
      rfl
    unfold cleanupStep
    rw [hscan]
    simp only [List.foldl_nil, List.length_nil, Nat.add_zero]
    exact ih st n (fun c' hc' => hmemo c' (List.mem_cons_of_mem _ hc'))

/-- Invariant tying an intermediate state of `cleanup` to the starting state:
counters and categories are untouched and each configured category's map is
the original minus the tokens removed so far. -/
def CleanInv (s : BayesState) (R : List Token) (t : BayesState) : Prop :=
  t.categories = s.categories ∧
  t.document_count = s.document_count ∧
  t.total_document_count = s.total_document_count ∧
  ∀ c, t.word_memo c =
    if c ∈ s.categories then (s.word_memo c).filter (fun p => decide (p.1 ∉ R))
    else s.word_memo c

theorem cleanInv_word_count (s : BayesState) (R : List Token) (t : BayesState)
    (h : CleanInv s R t) (w : Token) (hw : w ∉ R) (c : Cat) :
    word_count t w c = word_count s w c := by
  unfold word_count
  rw [h.2.2.2 c]
  by_cases hc : c ∈ s.categories
  · rw [if_pos hc]
    have hq := dictGet_filter (fun tk => decide (tk ∉ R)) (s.word_memo c) w
    rw [hq, if_pos (by simpa using hw)]
  · rw [if_neg hc]

theorem cleanInv_wordProbVal (s : BayesState) (R : List Token) (t : BayesState)
    (h : CleanInv s R t) (w : Token) (hw : w ∉ R) :
    wordProbVal t w = wordProbVal s w := by
  unfold wordProbVal wordProbNum
  rw [h.1, h.2.2.1]
  have hfun : (fun c => word_count t w c) = fun c => word_count s w c :=
    funext fun c => cleanInv_word_count s R t h w hw c
  rw [hfun]

theorem cleanupStep_eq (θ : ℚ) (acc : BayesState × ℕ) (c : Cat) (marked : List Token)
    (h : scanCat acc.1 θ c = .ok marked) :
    cleanupStep θ acc c =
      .ok (marked.foldl (fun t w => remove_word t w none) acc.1, acc.2 + marked.length) := by
  unfold cleanupStep
  rw [h]

/-- Main induction for `cleanup`: processing the remaining categories removes
exactly the not-yet-removed tokens of those categories whose marginal
probability (in the starting state) meets the threshold, counting each removed
token once. -/
theorem cleanup_go (s : BayesState) (θ : ℚ) (h0 : s.total_document_count ≠ 0)
    (hkeys : ∀ c ∈ s.categories, ((s.word_memo c).map Prod.fst).Nodup) :
    ∀ (todo done : List Cat) (R : List Token) (st : BayesState) (n : ℕ),
      s.categories = done ++ todo →
      CleanInv s R st →
      R.Nodup →
      (∀ tk, tk ∈ R ↔ (θ ≤ wordProbVal s tk ∧ ∃ c ∈ done, tk ∈ (s.word_memo c).map Prod.fst)) →
      ∃ Δ st',
        List.foldlM (cleanupStep θ) (st, n) todo = .ok (st', n + Δ.length) ∧
        (R ++ Δ).Nodup ∧
        (∀ tk, tk ∈ R ++ Δ ↔
          (θ ≤ wordProbVal s tk ∧ ∃ c ∈ done ++ todo, tk ∈ (s.word_memo c).map Prod.fst)) ∧
        CleanInv s (R ++ Δ) st' := by
  intro todo
  induction todo with
  | nil =>
    intro done R st n hsplit hinv hnd hmem
    refine ⟨[], st, ?_, ?_, ?_, ?_⟩
    · simp only [List.foldlM_nil, List.length_nil, Nat.add_zero]
      rfl
    · rw [List.append_nil]
      exact hnd
    · intro tk
      simp only [List.append_nil]
      exact hmem tk
    · rw [List.append_nil]
      exact hinv
  | cons c todo ih =>
    intro done R st n hsplit hinv hnd hmem
    have hc : c ∈ s.categories := by
      rw [hsplit]
      exact List.mem_append_right done (List.mem_cons_self c todo)
    have hstc : st.categories = s.categories := hinv.1
    have hstt : st.total_document_count = s.total_document_count := hinv.2.2.1
    have h0' : st.total_document_count ≠ 0 := by rw [hstt]; exact h0
    have hmemoc : st.word_memo c = (s.word_memo c).filter (fun p => decide (p.1 ∉ R)) := by
      rw [hinv.2.2.2 c, if_pos hc]
    have hkeysc : (st.word_memo c).map Prod.fst
        = ((s.word_memo c).map Prod.fst).filter (fun w => decide (w ∉ R)) := by
      rw [hmemoc]
      exact keys_filter (fun tk => decide (tk ∉ R)) (s.word_memo c)
    have hscanM : scanCat st θ c
        = .ok ((((s.word_memo c).map Prod.fst).filter (fun w => decide (w ∉ R))).filter
            (fun w => decide (θ ≤ wordProbVal s w))) := by
      rw [scanCat_ok st θ c h0', hkeysc]
      congr 1
      apply List.filter_congr
      intro w hw
      rw [List.mem_filter, decide_eq_true_eq] at hw
      rw [cleanInv_wordProbVal s R st hinv w hw.2]
    have hstepeq := cleanupStep_eq θ (st, n) c _ hscanM
    have hMnodup : ((((s.word_memo c).map Prod.fst).filter (fun w => decide (w ∉ R))).filter
        (fun w => decide (θ ≤ wordProbVal s w))).Nodup :=
      ((hkeys c hc).filter _).filter _
    have hMR : ∀ w ∈ (((s.word_memo c).map Prod.fst).filter (fun w => decide (w ∉ R))).filter
        (fun w => decide (θ ≤ wordProbVal s w)), w ∉ R := by
      intro w hw
      rw [List.mem_filter] at hw
      have h1 := hw.1
      rw [List.mem_filter, decide_eq_true_eq] at h1
      exact h1.2
    have hMmem : ∀ w, w ∈ (((s.word_memo c).map Prod.fst).filter (fun w => decide (w ∉ R))).filter
        (fun w => decide (θ ≤ wordProbVal s w)) ↔
        (w ∈ (s.word_memo c).map Prod.fst ∧ w ∉ R ∧ θ ≤ wordProbVal s w) := by
      intro w
      rw [List.mem_filter, List.mem_filter, decide_eq_true_eq, decide_eq_true_eq, and_assoc]
    have hnd₂ : (R ++ (((s.word_memo c).map Prod.fst).filter (fun w => decide (w ∉ R))).filter
        (fun w => decide (θ ≤ wordProbVal s w))).Nodup := by
      rw [List.nodup_append]
      exact ⟨hnd, hMnodup, fun a haR haM => (hMR a haM) haR⟩
    have hinv₂ : CleanInv s (R ++ (((s.word_memo c).map Prod.fst).filter
          (fun w => decide (w ∉ R))).filter (fun w => decide (θ ≤ wordProbVal s w)))
        ((((((s.word_memo c).map Prod.fst).filter (fun w => decide (w ∉ R))).filter
          (fun w => decide (θ ≤ wordProbVal s w)))).foldl (fun t w => remove_word t w none) st) := by
      refine ⟨?_, ?_, ?_, ?_⟩
      · rw [foldl_remove_all_categories]
        exact hstc
      · rw [foldl_remove_all_document_count]
        exact hinv.2.1
      · rw [foldl_remove_all_total]
        exact hstt
      · intro c'
        rw [foldl_remove_all_memo, hstc]
        by_cases hc' : c' ∈ s.categories
        · rw [if_pos hc', if_pos hc', hinv.2.2.2 c', if_pos hc', List.filter_filter]
          apply List.filter_congr
          intro x _
          by_cases h1 : x.1 ∈ (((s.word_memo c).map Prod.fst).filter (fun w => decide (w ∉ R))).filter
              (fun w => decide (θ ≤ wordProbVal s w)) <;>
            by_cases h2 : x.1 ∈ R <;>
              simp [h1, h2, List.mem_append]
        · rw [if_neg hc', if_neg hc', hinv.2.2.2 c', if_neg hc']
    have hmem₂ : ∀ tk, tk ∈ R ++ (((s.word_memo c).map Prod.fst).filter
          (fun w => decide (w ∉ R))).filter (fun w => decide (θ ≤ wordProbVal s w)) ↔
        (θ ≤ wordProbVal s tk ∧ ∃ c' ∈ done ++ [c], tk ∈ (s.word_memo c').map Prod.fst) := by
      intro tk
      rw [List.mem_append]
      constructor
      · rintro (hR | hM)
        · obtain ⟨hθ, c', hc', hk⟩ := (hmem tk).mp hR
          exact ⟨hθ, c', List.mem_append_left _ hc', hk⟩
        · obtain ⟨hk, _, hθ⟩ := (hMmem tk).mp hM
          exact ⟨hθ, c, List.mem_append_right _ (by simp), hk⟩
      · rintro ⟨hθ, c', hc', hk⟩
        rcases List.mem_append.mp hc' with hdone | hcc
        · exact Or.inl ((hmem tk).mpr ⟨hθ, c', hdone, hk⟩)
        · have hcc' : c' = c := by simpa using hcc
          subst hcc'
          by_cases hR : tk ∈ R
          · exact Or.inl hR
          · exact Or.inr ((hMmem tk).mpr ⟨hk, hR, hθ⟩)
    have hsplit₂ : s.categories = (done ++ [c]) ++ todo := by
      rw [hsplit]
      simp
    obtain ⟨Δ, st', hfold, hnd', hmem', hinv'⟩ :=
      ih (done ++ [c])
        (R ++ (((s.word_memo c).map Prod.fst).filter (fun w => decide (w ∉ R))).filter
          (fun w => decide (θ ≤ wordProbVal s w)))
        ((((((s.word_memo c).map Prod.fst).filter (fun w => decide (w ∉ R))).filter
          (fun w => decide (θ ≤ wordProbVal s w)))).foldl (fun t w => remove_word t w none) st)
        (n + ((((s.word_memo c).map Prod.fst).filter (fun w => decide (w ∉ R))).filter
          (fun w => decide (θ ≤ wordProbVal s w))).length)
        hsplit₂ hinv₂ hnd₂ hmem₂
    refine ⟨(((s.word_memo c).map Prod.fst).filter (fun w => decide (w ∉ R))).filter
        (fun w => decide (θ ≤ wordProbVal s w)) ++ Δ, st', ?_, ?_, ?_, ?_⟩
    · rw [foldlM_except_cons, hstepeq]
      have hlen : n + ((((s.word_memo c).map Prod.fst).filter (fun w => decide (w ∉ R))).filter
            (fun w => decide (θ ≤ wordProbVal s w))).length + Δ.length
          = n + ((((s.word_memo c).map Prod.fst).filter (fun w => decide (w ∉ R))).filter
            (fun w => decide (θ ≤ wordProbVal s w)) ++ Δ).length := by
        rw [List.length_append]
        omega
      exact hlen ▸ hfold
    · rw [← List.append_assoc]
      exact hnd'
    · intro tk
      rw [← List.append_assoc]
      rw [hmem' tk]
      have hl : (done ++ [c]) ++ todo = done ++ c :: todo := by simp
      rw [hl]
    · rw [← List.append_assoc]
      exact hinv'

/-- Full characterization of a successful `cleanup` run: it succeeds when at
least one document has been trained, removes from every configured category
exactly the tokens whose marginal probability meets the threshold, and
reports one removal per distinct removed token. -/
theorem cleanup_spec (s : BayesState) (θ : ℚ) (h0 : s.total_document_count ≠ 0)
    (hkeys : ∀ c ∈ s.categories, ((s.word_memo c).map Prod.fst).Nodup) :
    ∃ s', cleanup s θ
        = .ok (s', ((corpusTokens s).filter (fun tk => decide (θ ≤ wordProbVal s tk))).length) ∧
      s'.categories = s.categories ∧
      s'.document_count = s.document_count ∧
      s'.total_document_count = s.total_document_count ∧
      (∀ c ∈ s.categories,
        s'.word_memo c = (s.word_memo c).filter (fun p => decide (wordProbVal s p.1 < θ))) := by
  have hinv0 : CleanInv s [] s := by
    refine ⟨rfl, rfl, rfl, ?_⟩
    intro c
    by_cases hc : c ∈ s.categories
    · rw [if_pos hc]
      symm
      rw [List.filter_eq_self]
      intro a _
      simp
    · rw [if_neg hc]
  obtain ⟨Δ, st', hfold, hnd, hmem, hinv⟩ :=
    cleanup_go s θ h0 hkeys s.categories [] [] s 0 (by simp) hinv0 (by simp) (by simp)
  simp only [List.nil_append] at hfold hnd hmem hinv
  have hndfilt : ((corpusTokens s).filter (fun tk => decide (θ ≤ wordProbVal s tk))).Nodup :=
    (List.nodup_dedup _).filter _
  have hset : ∀ tk, tk ∈ Δ ↔
      tk ∈ (corpusTokens s).filter (fun tk => decide (θ ≤ wordProbVal s tk)) := by
    intro tk
    rw [hmem tk, List.mem_filter, decide_eq_true_eq]
    unfold corpusTokens
    rw [List.mem_dedup, List.mem_flatten]
    constructor
    · rintro ⟨hθ, c, hc, hk⟩
      exact ⟨⟨(s.word_memo c).map Prod.fst,
        List.mem_map_of_mem (fun c => (s.word_memo c).map Prod.fst) hc, hk⟩, hθ⟩
    · rintro ⟨⟨l, hl, hk⟩, hθ⟩
      rw [List.mem_map] at hl
      obtain ⟨c, hc, rfl⟩ := hl
      exact ⟨hθ, c, hc, hk⟩
  have hfin : Δ.toFinset
      = ((corpusTokens s).filter (fun tk => decide (θ ≤ wordProbVal s tk))).toFinset := by
    apply Finset.ext
    intro tk
    rw [List.mem_toFinset, List.mem_toFinset]
    exact hset tk
  have hcount : Δ.length
      = ((corpusTokens s).filter (fun tk => decide (θ ≤ wordProbVal s tk))).length := by
    calc Δ.length = Δ.toFinset.card := (List.toFinset_card_of_nodup hnd).symm
      _ = ((corpusTokens s).filter (fun tk => decide (θ ≤ wordProbVal s tk))).toFinset.card := by
          rw [hfin]
      _ = ((corpusTokens s).filter (fun tk => decide (θ ≤ wordProbVal s tk))).length :=
          List.toFinset_card_of_nodup hndfilt
  refine ⟨st', ?_, hinv.1, hinv.2.1, hinv.2.2.1, ?_⟩
  · unfold cleanup
    rw [hfold]
    rw [Nat.zero_add, hcount]
  · intro c hc
    rw [hinv.2.2.2 c, if_pos hc]
    apply List.filter_congr
    intro p hp
    have hpk : p.1 ∈ (s.word_memo c).map Prod.fst := List.mem_map_of_mem Prod.fst hp
    by_cases hθ : θ ≤ wordProbVal s p.1
    · have hin : p.1 ∈ Δ := (hmem p.1).mpr ⟨hθ, c, hc, hpk⟩
      simp [hin, not_lt.mpr hθ]
    · have hout : p.1 ∉ Δ := fun hmem2 => hθ ((hmem p.1).mp hmem2).1
      simp [hout, not_le.mp hθ]

/-! ### Reachable-state invariants -/

theorem train_eq_ok (s : BayesState) (bag : List Token) (c : Cat) (s' : BayesState)
    (h : train s bag c = .ok s') : c ∈ s.categories ∧ s' = trainOk s bag c := by
  unfold train trainSteps at h
  by_cases hc : c ∈ s.categories
  · rw [if_pos hc] at h
    have h2 : Except.ok (trainOk s bag c) = Except.ok s' := h
    exact ⟨hc, (Except.ok.inj h2).symm⟩
  · rw [if_neg hc] at h
    have h2 : (Except.error PyErr.keyError : Except PyErr BayesState) = Except.ok s' := h
    cases h2

theorem trainOk_document_count_apply (s : BayesState) (bag : List Token) (c c' : Cat) :
    (trainOk s bag c).document_count c' =
      if c' = c then s.document_count c' + 1 else s.document_count c' := by
  rw [trainOk_document_count]

theorem trainOk_keys_nodup (s : BayesState) (bag : List Token) (c c' : Cat)
    (h : ((s.word_memo c').map Prod.fst).Nodup) :
    (((trainOk s bag c).word_memo c').map Prod.fst).Nodup := by
  unfold trainOk
  apply foldl_add_word_keys_nodup
  exact h

theorem trainOk_snd_pos (s : BayesState) (bag : List Token) (c c' : Cat)
    (h : ∀ p ∈ s.word_memo c', 1 ≤ p.2) :
    ∀ p ∈ (trainOk s bag c).word_memo c', 1 ≤ p.2 := by
  unfold trainOk
  apply foldl_add_word_snd_pos
  exact h

theorem sum_map_bump (f : Cat → ℕ) (c : Cat) :
    ∀ (cats : List Cat), cats.Nodup → c ∈ cats →
      (cats.map fun c' => if c' = c then f c' + 1 else f c').sum = (cats.map f).sum + 1 := by
  intro cats
  induction cats with
  | nil => intro _ hc; simp at hc
  | cons c0 rest ih =>
    intro hnd hc
    rw [List.nodup_cons] at hnd
    rw [List.map_cons, List.map_cons, List.sum_cons, List.sum_cons]
    rcases List.mem_cons.mp hc with heq | hc
    · rw [if_pos heq.symm]
      have hmap : (rest.map fun c' => if c' = c then f c' + 1 else f c') = rest.map f := by
        apply List.map_congr_left
        intro x hx
        rw [if_neg]
        intro hxc
        apply hnd.1
        rw [← heq, ← hxc]
        exact hx
      rw [hmap]
      omega
    · have hne : c0 ≠ c := by
        intro he
        exact hnd.1 (he ▸ hc)
      rw [if_neg hne, ih hnd.2 hc]
      omega

/-- The state invariants maintained by every reachable state: non-empty
duplicate-free category list, the running total equal to the sum of
per-category document counts, per-category maps with unique keys and positive
stored counts, and each word's per-category count bounded by that category's
document count. -/
theorem reachable_wf (s : BayesState) (h : Reachable s) :
    s.categories ≠ [] ∧ s.categories.Nodup ∧
    s.total_document_count = priorDen s ∧
    (∀ c ∈ s.categories, ((s.word_memo c).map Prod.fst).Nodup) ∧
    (∀ c ∈ s.categories, ∀ p ∈ s.word_memo c, 1 ≤ p.2) ∧
    (∀ c ∈ s.categories, ∀ t, word_count s t c ≤ s.document_count c) := by
  induction h with
  | init cats hne hnd =>
    refine ⟨hne, hnd, ?_, ?_, ?_, ?_⟩
    · have h1 : (initState cats).total_document_count = 0 := rfl
      have h2 : (initState cats).categories = cats := rfl
      unfold priorDen
      rw [h1, h2]
      symm
      rw [List.sum_eq_zero_iff]
      intro x hx
      rw [List.mem_map] at hx
      obtain ⟨c, _, rfl⟩ := hx
      rfl
    · intro c _
      simp [initState]
    · intro c _ p hp
      simp [initState] at hp
    · intro c _ t
      simp [initState, word_count, dictGet]
  | train_step s bag c s' hR hbag heq ih =>
    obtain ⟨hc, hs'⟩ := train_eq_ok s bag c s' heq
    subst hs'
    obtain ⟨ih1, ih2, ih3, ih4, ih5, ih6⟩ := ih
    refine ⟨?_, ?_, ?_, ?_, ?_, ?_⟩
    · rw [trainOk_categories]
      exact ih1
    · rw [trainOk_categories]
      exact ih2
    · rw [trainOk_total]
      unfold priorDen
      rw [trainOk_categories, trainOk_document_count,
        sum_map_bump s.document_count c s.categories ih2 hc]
      unfold priorDen at ih3
      rw [ih3]
    · intro c' hc'
      rw [trainOk_categories] at hc'
      exact trainOk_keys_nodup s bag c c' (ih4 c' hc')
    · intro c' hc'
      rw [trainOk_categories] at hc'
      exact trainOk_snd_pos s bag c c' (ih5 c' hc')
    · intro c' hc' t
      rw [trainOk_categories] at hc'
      rw [trainOk_document_count_apply]
      by_cases he : c' = c
      · subst he
        rw [trainOk_get s bag c' hbag t, if_pos rfl]
        have hb := ih6 c' hc' t
        by_cases ht : t ∈ bag <;> simp [ht] <;> omega
      · rw [if_neg he]
        have hmemo : word_count (trainOk s bag c) t c' = word_count s t c' := by
          unfold word_count
          rw [trainOk_memo_ne s bag c c' he]
        rw [hmemo]
        exact ih6 c' hc' t
  | cleanup_step s θ s' n hR heq ih =>
    obtain ⟨ih1, ih2, ih3, ih4, ih5, ih6⟩ := ih
    by_cases h0 : s.total_document_count = 0
    · have hdc : ∀ c ∈ s.categories, s.document_count c = 0 := by
        intro c hc
        have hsum : priorDen s = 0 := by rw [← ih3]; exact h0
        unfold priorDen at hsum
        rw [List.sum_eq_zero_iff] at hsum
        exact hsum _ (List.mem_map_of_mem s.document_count hc)
      have hmemo : ∀ c ∈ s.categories, s.word_memo c = [] := by
        intro c hc
        cases hm : s.word_memo c with
        | nil => rfl
        | cons p rest =>
          exfalso
          have hp : p ∈ s.word_memo c := by rw [hm]; simp
          have h1 : 1 ≤ p.2 := ih5 c hc p hp
          have h2 : dictGet (s.word_memo c) p.1 = p.2 := dictGet_of_mem _ (ih4 c hc) p hp
          have h3 : word_count s p.1 c ≤ s.document_count c := ih6 c hc p.1
          unfold word_count at h3
          rw [h2, hdc c hc] at h3
          omega
      have hclean : cleanup s θ = .ok (s, 0) := by
        unfold cleanup
        exact cleanup_empty_go θ s.categories s 0 hmemo
      have h12 := Except.ok.inj (heq.symm.trans hclean)
      have hs' : s' = s := congrArg Prod.fst h12
      subst hs'
      exact ⟨ih1, ih2, ih3, ih4, ih5, ih6⟩
    · obtain ⟨s'', hcl, hcats, hdc, htot, hmm⟩ := cleanup_spec s θ h0 ih4
      have h12 := Except.ok.inj (heq.symm.trans hcl)
      have hs' : s' = s'' := congrArg Prod.fst h12
      subst hs'
      refine ⟨?_, ?_, ?_, ?_, ?_, ?_⟩
      · rw [hcats]
        exact ih1
      · rw [hcats]
        exact ih2
      · unfold priorDen
        rw [htot, hcats, hdc]
        unfold priorDen at ih3
        exact ih3
      · intro c hc
        rw [hcats] at hc
        rw [hmm c hc]
        have hk := keys_filter (fun tk => decide (wordProbVal s tk < θ)) (s.word_memo c)
        rw [hk]
        exact (ih4 c hc).filter _
      · intro c hc p hp
        rw [hcats] at hc
        rw [hmm c hc] at hp
        exact ih5 c hc p (List.mem_of_mem_filter hp)
      · intro c hc t
        rw [hcats] at hc
        rw [hdc]
        unfold word_count
        rw [hmm c hc]
        have hg := dictGet_filter (fun tk => decide (wordProbVal s tk < θ)) (s.word_memo c) t
        rw [hg]
        by_cases hp : wordProbVal s t < θ
        · rw [if_pos (by simpa using hp)]
          exact ih6 c hc t
        · rw [if_neg (by simpa using hp)]
          exact Nat.zero_le _
  | remove_step s w cat hR ih =>
    obtain ⟨ih1, ih2, ih3, ih4, ih5, ih6⟩ := ih
    have hcats := remove_word_categories s w cat
    have hdc := remove_word_document_count s w cat
    have htot := remove_word_total s w cat
    refine ⟨?_, ?_, ?_, ?_, ?_, ?_⟩
    · rw [hcats]
      exact ih1
    · rw [hcats]
      exact ih2
    · unfold priorDen
      rw [htot, hcats, hdc]
      unfold priorDen at ih3
      exact ih3
    · intro c hc
      rw [hcats] at hc
      obtain ⟨q, hq⟩ := remove_word_memo_filter s w cat c
      rw [hq, keys_filter]
      exact (ih4 c hc).filter _
    · intro c hc p hp
      rw [hcats] at hc
      obtain ⟨q, hq⟩ := remove_word_memo_filter s w cat c
      rw [hq] at hp
      exact ih5 c hc p (List.mem_of_mem_filter hp)
    · intro c hc t
      rw [hcats] at hc
      rw [hdc]
      unfold word_count
      obtain ⟨q, hq⟩ := remove_word_memo_filter s w cat c
      rw [hq, dictGet_filter q (s.word_memo c) t]
      by_cases hp : q t = true
      · rw [if_pos hp]
        exact ih6 c hc t
      · rw [if_neg hp]
        exact Nat.zero_le _

/-! ### Claims -/

/-- C1: For every (reachable, non-trivially trained) model state and every
input bag of words, `classify` computes the likelihood of every configured
category and returns the pair of the first category attaining the running
maximum and that maximum; the maximum is seeded at 0 with the first category
as the default winner and a category must strictly exceed the current best to
replace it, so ties and the all-zero case yield the earliest category. -/
theorem claim_C1 (s : BayesState) (bag : List Token)
    (hR : Reachable s) (h0 : s.total_document_count ≠ 0) :
    ∃ w m pre post,
      classify s bag = .ok (w, m) ∧
      s.categories = pre ++ w :: post ∧
      tlVal s bag w = m ∧
      (∀ c ∈ pre, tlVal s bag c < m) ∧
      (∀ c ∈ s.categories, tlVal s bag c ≤ m) := by
  obtain ⟨hne, hnd, hS, _, _, _⟩ := reachable_wf s hR
  have hden : priorDen s ≠ 0 := by rw [← hS]; exact h0
  have hok : ∀ c, text_likelihood s bag c = .ok (tlVal s bag c) :=
    fun c => text_likelihood_ok s bag c h0 hden
  obtain ⟨c0, rest, hcats⟩ := List.exists_cons_of_ne_nil hne
  have hclassify : classify s bag = classifyGo s bag (c0 :: rest) c0 0 := by
    unfold classify
    rw [hcats]
  obtain ⟨w, hw, hcase⟩ := classifyGo_spec s bag (tlVal s bag) hok (c0 :: rest) c0 0
  rcases hcase with ⟨hwc0, hM0, hall⟩ | ⟨pre, post, hsplit, hLw, _, hpre⟩
  · refine ⟨w, 0, [], rest, ?_, ?_, ?_, ?_, ?_⟩
    · rw [hclassify, hw, hM0]
    · rw [hcats, hwc0, List.nil_append]
    · have h1 := hall w (by rw [hwc0]; exact List.mem_cons_self c0 rest)
      have h2 := tlVal_nonneg s bag w
      linarith
    · intro c hc
      simp at hc
    · intro c hc
      rw [hcats] at hc
      exact hall c hc
  · refine ⟨w, (c0 :: rest).foldl (fun a c => max a (tlVal s bag c)) 0, pre, post,
      ?_, ?_, hLw, hpre, ?_⟩
    · rw [hclassify, hw]
    · rw [hcats, hsplit]
    · intro c hc
      rw [hcats] at hc
      exact foldl_max_le (tlVal s bag) (c0 :: rest) 0 c hc

theorem claim_C1_witness :
    ∃ w m pre post,
      classify (trainOk (initState ["a", "b"]) ["x"] "a") ["x"] = .ok (w, m) ∧
      (trainOk (initState ["a", "b"]) ["x"] "a").categories = pre ++ w :: post ∧
      tlVal (trainOk (initState ["a", "b"]) ["x"] "a") ["x"] w = m ∧
      (∀ c ∈ pre, tlVal (trainOk (initState ["a", "b"]) ["x"] "a") ["x"] c < m) ∧
      (∀ c ∈ (trainOk (initState ["a", "b"]) ["x"] "a").categories,
        tlVal (trainOk (initState ["a", "b"]) ["x"] "a") ["x"] c ≤ m) :=
  claim_C1 (trainOk (initState ["a", "b"]) ["x"] "a") ["x"]
    (Reachable.train_step (initState ["a", "b"]) ["x"] "a"
      (trainOk (initState ["a", "b"]) ["x"] "a")
      (Reachable.init ["a", "b"] (by decide) (by decide)) (by decide) rfl)
    (by decide)

/-- C3: On every reachable model state with `total_document_count = 0` (i.e.
before any training), `classify` raises `ZeroDivisionError` for every input
bag instead of returning a default result, and so do the underlying
`word_probability` and `category_probability`. -/
theorem claim_C3 (s : BayesState) (bag : List Token) (w : Token) (c : Cat)
    (hR : Reachable s) (h0 : s.total_document_count = 0) :
    classify s bag = .error .zeroDivision ∧
    word_probability s w = .error .zeroDivision ∧
    category_probability s c = .error .zeroDivision := by
  obtain ⟨hne, _, hS, _, _, _⟩ := reachable_wf s hR
  have hden : priorDen s = 0 := by rw [← hS]; exact h0
  refine ⟨?_, ?_, ?_⟩
  · obtain ⟨c0, rest, hcats⟩ := List.exists_cons_of_ne_nil hne
    have hclassify : classify s bag = classifyGo s bag (c0 :: rest) c0 0 := by
      unfold classify
      rw [hcats]
    rw [hclassify]
    exact classifyGo_cons_err s bag c0 rest c0 0 _ (text_likelihood_err s bag c0 h0 hden)
  · unfold word_probability
    rw [if_pos h0]
  · unfold category_probability
    rw [if_pos hden]

theorem claim_C3_witness :
    classify (initState ["a", "b"]) ["x"] = .error .zeroDivision ∧
    word_probability (initState ["a", "b"]) "x" = .error .zeroDivision ∧
    category_probability (initState ["a", "b"]) "a" = .error .zeroDivision :=
  claim_C3 (initState ["a", "b"]) ["x"] "x" "a"
    (Reachable.init ["a", "b"] (by decide) (by decide)) rfl

/-- C4: Training with a category outside the configured set raises `KeyError`
(from the dict read in `self.document_count[category] += 1`, which precedes
every state mutation) and leaves the entire model state exactly unchanged. -/
theorem claim_C4 (s : BayesState) (bag : List Token) (c : Cat) (hc : c ∉ s.categories) :
    trainSteps s bag c = (s, some PyErr.keyError) ∧
    train s bag c = .error PyErr.keyError := by
  constructor
  · unfold trainSteps
    rw [if_neg hc]
  · unfold train trainSteps
    rw [if_neg hc]

theorem claim_C4_witness :
    trainSteps (initState ["a", "b"]) ["x"] "c" = (initState ["a", "b"], some PyErr.keyError) ∧
    train (initState ["a", "b"]) ["x"] "c" = .error PyErr.keyError :=
  claim_C4 (initState ["a", "b"]) ["x"] "c" (by decide)

/-- C7: In every reachable state (fresh construction followed by any sequence
of successful operations), `total_document_count` equals the sum of the
per-category document counts over the configured categories. -/
theorem claim_C7 (s : BayesState) (hR : Reachable s) :
    s.total_document_count = (s.categories.map s.document_count).sum := by
  have h := (reachable_wf s hR).2.2.1
  unfold priorDen at h
  exact h

theorem claim_C7_witness :
    (trainOk (initState ["a", "b"]) ["x"] "a").total_document_count =
      ((trainOk (initState ["a", "b"]) ["x"] "a").categories.map
        (trainOk (initState ["a", "b"]) ["x"] "a").document_count).sum :=
  claim_C7 (trainOk (initState ["a", "b"]) ["x"] "a")
    (Reachable.train_step (initState ["a", "b"]) ["x"] "a"
      (trainOk (initState ["a", "b"]) ["x"] "a")
      (Reachable.init ["a", "b"] (by decide) (by decide)) (by decide) rfl)

/-- C8: In every reachable state, for every configured category and every
token, the token's per-category count is bounded by that category's document
count: each `train` call increments a token's count at most once because the
tokenizer deduplicates tokens within a document. -/
theorem claim_C8 (s : BayesState) (hR : Reachable s) (c : Cat) (hc : c ∈ s.categories)
    (t : Token) : word_count s t c ≤ s.document_count c :=
  (reachable_wf s hR).2.2.2.2.2 c hc t

theorem claim_C8_witness :
    word_count (trainOk (initState ["a", "b"]) ["x"] "a") "x" "a" ≤
      (trainOk (initState ["a", "b"]) ["x"] "a").document_count "a" :=
  claim_C8 (trainOk (initState ["a", "b"]) ["x"] "a")
    (Reachable.train_step (initState ["a", "b"]) ["x"] "a"
      (trainOk (initState ["a", "b"]) ["x"] "a")
      (Reachable.init ["a", "b"] (by decide) (by decide)) (by decide) rfl)
    "a" (by decide) "x"

/-- C2 counterexample: a model freshly constructed with two categories and
trained with one document per category can lose a token to
`cleanup(threshold=1.0)`: if the same token occurs in both training documents,
its marginal probability is (1+1)/2 = 1.0 ≥ 1.0, so the cleanup removes it and
reports 1 removal, not 0. -/
theorem claim_C2_counterexample :
    train (initState ["a", "b"]) ["x"] "a"
      = .ok (trainOk (initState ["a", "b"]) ["x"] "a") ∧
    train (trainOk (initState ["a", "b"]) ["x"] "a") ["x"] "b"
      = .ok (trainOk (trainOk (initState ["a", "b"]) ["x"] "a") ["x"] "b") ∧
    Except.map Prod.snd
      (cleanup (trainOk (trainOk (initState ["a", "b"]) ["x"] "a") ["x"] "b") 1)
      = Except.ok 1 := by
  refine ⟨rfl, rfl, ?_⟩
  with_unfolding_all rfl

/-- C2 as amended: `cleanup(threshold=1.0)` on a trained model removes 0
tokens provided no token has marginal probability 1.0, i.e. provided no token
occurs in every training document; a token occurring in every training
document reaches marginal probability exactly 1.0 and is removed (see the
counterexample). -/
theorem claim_C2_amended (s : BayesState)
    (h0 : s.total_document_count ≠ 0)
    (hkeys : ∀ c ∈ s.categories, ((s.word_memo c).map Prod.fst).Nodup)
    (hlt : ∀ tk ∈ corpusTokens s, wordProbVal s tk < 1) :
    ∃ s', cleanup s 1 = .ok (s', 0) ∧
      ∀ c ∈ s.categories, s'.word_memo c = s.word_memo c := by
  obtain ⟨s', h1, _, _, _, h5⟩ := cleanup_spec s 1 h0 hkeys
  have hfilt : (corpusTokens s).filter (fun tk => decide ((1 : ℚ) ≤ wordProbVal s tk)) = [] := by
    rw [List.filter_eq_nil_iff]
    intro a ha
    rw [decide_eq_true_eq]
    exact not_le.mpr (hlt a ha)
  refine ⟨s', ?_, ?_⟩
  · rw [h1, hfilt]
    rfl
  · intro c hc
    rw [h5 c hc]
    rw [List.filter_eq_self]
    intro p hp
    rw [decide_eq_true_eq]
    apply hlt
    unfold corpusTokens
    rw [List.mem_dedup, List.mem_flatten]
    exact ⟨(s.word_memo c).map Prod.fst,
      List.mem_map_of_mem (fun c => (s.word_memo c).map Prod.fst) hc,
      List.mem_map_of_mem Prod.fst hp⟩

theorem claim_C2_witness :
    ∃ s', cleanup (trainOk (trainOk (initState ["a", "b"]) ["x"] "a") ["y"] "b") 1
        = .ok (s', 0) ∧
      ∀ c ∈ (trainOk (trainOk (initState ["a", "b"]) ["x"] "a") ["y"] "b").categories,
        s'.word_memo c = (trainOk (trainOk (initState ["a", "b"]) ["x"] "a") ["y"] "b").word_memo c :=
  claim_C2_amended (trainOk (trainOk (initState ["a", "b"]) ["x"] "a") ["y"] "b")
    (by decide) (by decide) (by with_unfolding_all decide)

/-- C5: For every bag of words and configured category (on a reachable state
with at least one trained document), `text_likelihood` returns the category
prior times the product, over the tokens whose marginal probability and
per-category likelihood are both strictly positive, of the ratio
likelihood / marginal; the other tokens contribute no factor. -/
theorem claim_C5 (s : BayesState) (bag : List Token) (c : Cat)
    (hR : Reachable s) (_hc : c ∈ s.categories) (h0 : s.total_document_count ≠ 0) :
    text_likelihood s bag c = .ok (categoryPriorVal s c *
      ((bag.filter (tlCond s c)).map
        (fun w => word_probability_category s w c / wordProbVal s w)).prod) := by
  obtain ⟨_, _, hS, _, _, _⟩ := reachable_wf s hR
  have hden : priorDen s ≠ 0 := by rw [← hS]; exact h0
  rw [text_likelihood_ok s bag c h0 hden]
  unfold tlVal tlProd
  rw [mul_comm]

theorem claim_C5_witness :
    text_likelihood (trainOk (initState ["a", "b"]) ["x"] "a") ["x", "y"] "a"
      = .ok (categoryPriorVal (trainOk (initState ["a", "b"]) ["x"] "a") "a" *
        ((["x", "y"].filter (tlCond (trainOk (initState ["a", "b"]) ["x"] "a") "a")).map
          (fun w => word_probability_category (trainOk (initState ["a", "b"]) ["x"] "a") w "a" /
            wordProbVal (trainOk (initState ["a", "b"]) ["x"] "a") w)).prod) :=
  claim_C5 (trainOk (initState ["a", "b"]) ["x"] "a") ["x", "y"] "a"
    (Reachable.train_step (initState ["a", "b"]) ["x"] "a"
      (trainOk (initState ["a", "b"]) ["x"] "a")
      (Reachable.init ["a", "b"] (by decide) (by decide)) (by decide) rfl)
    (by decide) (by decide)

/-- C6: On a trained state, `cleanup` removes from every configured category
exactly the tokens whose marginal probability meets the threshold, and the
count it reports is the number of distinct removed tokens (one per word
removal event), not the number of (token, category) pairs deleted. -/
theorem claim_C6 (s : BayesState) (θ : ℚ)
    (h0 : s.total_document_count ≠ 0)
    (hkeys : ∀ c ∈ s.categories, ((s.word_memo c).map Prod.fst).Nodup) :
    ∃ s', cleanup s θ
        = .ok (s', ((corpusTokens s).filter (fun tk => decide (θ ≤ wordProbVal s tk))).length) ∧
      ∀ c ∈ s.categories,
        s'.word_memo c = (s.word_memo c).filter (fun p => decide (wordProbVal s p.1 < θ)) := by
  obtain ⟨s', h1, _, _, _, h5⟩ := cleanup_spec s θ h0 hkeys
  exact ⟨s', h1, h5⟩

theorem claim_C6_witness :
    ∃ s', cleanup (trainOk (trainOk (initState ["a", "b"]) ["x", "y"] "a") ["x"] "b") 1
        = .ok (s',
          ((corpusTokens (trainOk (trainOk (initState ["a", "b"]) ["x", "y"] "a") ["x"] "b")).filter
            (fun tk => decide ((1 : ℚ) ≤
              wordProbVal (trainOk (trainOk (initState ["a", "b"]) ["x", "y"] "a") ["x"] "b") tk))).length) ∧
      ∀ c ∈ (trainOk (trainOk (initState ["a", "b"]) ["x", "y"] "a") ["x"] "b").categories,
        s'.word_memo c
          = ((trainOk (trainOk (initState ["a", "b"]) ["x", "y"] "a") ["x"] "b").word_memo c).filter
            (fun p => decide
              (wordProbVal (trainOk (trainOk (initState ["a", "b"]) ["x", "y"] "a") ["x"] "b") p.1 < 1)) :=
  claim_C6 (trainOk (trainOk (initState ["a", "b"]) ["x", "y"] "a") ["x"] "b") 1
    (by decide) (by decide)

/-- C9: When the empty string is a configured category identifier, passing it
explicitly selects the omitted-category behaviour, because the branch tests
Python truthiness of the argument: `remove_word(token, "")` removes the token
from every configured category's map, and `total_word_count("")` and
`vocab_size("")` return the all-categories aggregates. -/
theorem claim_C9 (s : BayesState) (w : Token) (_hconf : "" ∈ s.categories) :
    remove_word s w (some "") = remove_word s w none ∧
    (∀ c ∈ s.categories, word_count (remove_word s w (some "")) w c = 0) ∧
    total_word_count s (some "") = total_word_count s none ∧
    vocab_size s (some "") = vocab_size s none := by
  refine ⟨rfl, ?_, rfl, rfl⟩
  intro c hc
  unfold word_count
  have h1 : (remove_word s w (some "")).word_memo c = dictPop (s.word_memo c) w := by
    show (if c ∈ s.categories then dictPop (s.word_memo c) w else s.word_memo c) = _
    rw [if_pos hc]
  rw [h1, dictGet_dictPop, if_pos rfl]

theorem claim_C9_witness :
    remove_word (trainOk (initState ["", "b"]) ["x"] "") "x" (some "")
      = remove_word (trainOk (initState ["", "b"]) ["x"] "") "x" none ∧
    (∀ c ∈ (trainOk (initState ["", "b"]) ["x"] "").categories,
      word_count (remove_word (trainOk (initState ["", "b"]) ["x"] "") "x" (some "")) "x" c = 0) ∧
    total_word_count (trainOk (initState ["", "b"]) ["x"] "") (some "")
      = total_word_count (trainOk (initState ["", "b"]) ["x"] "") none ∧
    vocab_size (trainOk (initState ["", "b"]) ["x"] "") (some "")
      = vocab_size (trainOk (initState ["", "b"]) ["x"] "") none :=
  claim_C9 (trainOk (initState ["", "b"]) ["x"] "") "x" (by decide)

/-- C10: `cleanup` only ever modifies the per-category token maps: whenever it
returns, the configured category list, the per-category document counts and
the total document count are unchanged, hence every category prior is
identical before and after. -/
theorem claim_C10 (s : BayesState) (θ : ℚ) (s' : BayesState) (n : ℕ) (c : Cat)
    (h : cleanup s θ = .ok (s', n)) :
    s'.categories = s.categories ∧
    s'.document_count = s.document_count ∧
    s'.total_document_count = s.total_document_count ∧
    category_probability s' c = category_probability s c := by
  unfold cleanup at h
  obtain ⟨h1, h2, h3⟩ := cleanupGo_frame θ s.categories (s, 0) s' n h
  refine ⟨h1, h2, h3, ?_⟩
  unfold category_probability categoryPriorVal priorDen
  rw [h1, h2]

/-- Concrete run of `cleanup` for the C10 witness. -/
def cleanupResC10 : BayesState × ℕ :=
  (cleanup (trainOk (initState ["a", "b"]) ["x"] "a") 1).toOption.getD (initState [], 0)

theorem claim_C10_witness :
    cleanupResC10.1.categories = (trainOk (initState ["a", "b"]) ["x"] "a").categories ∧
    cleanupResC10.1.document_count = (trainOk (initState ["a", "b"]) ["x"] "a").document_count ∧
    cleanupResC10.1.total_document_count
      = (trainOk (initState ["a", "b"]) ["x"] "a").total_document_count ∧
    category_probability cleanupResC10.1 "a"
      = category_probability (trainOk (initState ["a", "b"]) ["x"] "a") "a" :=
  claim_C10 (trainOk (initState ["a", "b"]) ["x"] "a") 1 cleanupResC10.1 cleanupResC10.2 "a"
    (by with_unfolding_all rfl)
